import Mathlib

/-!
# Verification of the rebf interpreter core

A shallow embedding of the rebf Brainfuck-style interpreter
(`src/utils/machine.rs` and `src/utils/ast.rs`) together with proofs of
the specified properties of its parser and evaluator.

Conventions of the embedding:
* Rust `u8` cells are modelled as `Nat`; the machine's own operations
  keep every cell below 256, which is carried as an explicit hypothesis
  where a statement needs it.
* The ambient I/O channels (stdin, stdout, the diagnostic dump) are made
  explicit fields of the machine state: `input` is the list of bytes
  still unread on stdin, `output` the bytes written so far by `print`
  (as the byte sequence that `print!` actually emits, i.e. the UTF-8
  encoding of the cell value read as a code point), and `debug` the list
  of snapshots written by the `#` instruction.
* Reading from an exhausted stdin is not an I/O error in Rust: `read`
  returns `Ok(0)` and leaves the zero-initialised one-byte buffer
  untouched, so the embedded `read` is total.
* Loop execution can diverge, so the tree-walking evaluator `run` takes
  a fuel bound on the number of loop re-entries and returns `none` only
  on fuel exhaustion.
-/

namespace Rebf

/-- `Direction` from `machine.rs`. -/
inductive Direction where
  | Left
  | Right
  deriving DecidableEq

/-- `Computation` from `machine.rs`. -/
inductive Computation where
  | Add
  | Substract
  deriving DecidableEq

/-- `Operation` from `machine.rs`: the seven atomic instructions. -/
inductive Operation where
  | Move : Direction → Operation
  | Change : Computation → Operation
  | Print : Operation
  | Read : Operation
  | Debug : Operation
  deriving DecidableEq

/-- `Operation::value`: the canonical character of an instruction. -/
def Operation.value : Operation → Char
  | .Move .Right => '>'
  | .Move .Left => '<'
  | .Change .Add => '+'
  | .Change .Substract => '-'
  | .Print => '.'
  | .Read => ','
  | .Debug => '#'

/-- `Operation::from`: recognise an instruction character. -/
def Operation.fromChar (instr : Char) : Option Operation :=
  if instr = '>' then some (.Move .Right)
  else if instr = '<' then some (.Move .Left)
  else if instr = '+' then some (.Change .Add)
  else if instr = '-' then some (.Change .Substract)
  else if instr = '.' then some .Print
  else if instr = ',' then some .Read
  else if instr = '#' then some .Debug
  else none

/-- The program tree from `ast.rs`. -/
inductive AST where
  | Instructions : List Operation → AST → AST
  | Loop : AST → AST → AST
  | EOF : AST
  deriving DecidableEq

/-- `MachineState` from `machine.rs`, extended with the explicit I/O
channels described in the module header. -/
structure MachineState where
  pointer : Nat
  memory : List Nat
  input : List Nat
  output : List Nat
  debug : List (List Char)
  deriving DecidableEq

namespace MachineState

/-- `MachineState::new`: pointer 0, a single zero cell; here additionally
a given stdin content and empty output channels. -/
def mkNew (stdin : List Nat) : MachineState :=
  { pointer := 0, memory := [0], input := stdin, output := [], debug := [] }

/-- `MachineState::get_current`: the cell under the pointer.  Rust indexes
the vector directly (in bounds by the tape invariant); out of bounds the
embedding defaults to 0. -/
def get_current (s : MachineState) : Nat :=
  s.memory.getD s.pointer 0

/-- Overwrite the cell under the pointer (`self[pointer] = v`). -/
def setCell (s : MachineState) (v : Nat) : MachineState :=
  { s with memory := s.memory.set s.pointer v }

/-- `MachineState::pointer_move`. -/
def pointer_move (direction : Direction) (s : MachineState) : MachineState :=
  match direction with
  | .Left =>
      if s.pointer ≠ 0 then { s with pointer := s.pointer - 1 } else s
  | .Right =>
      let p := s.pointer + 1
      if p = s.memory.length then
        { s with pointer := p, memory := s.memory ++ [0] }
      else
        { s with pointer := p }

/-- `MachineState::change`: guarded wraparound increment / decrement. -/
def change (operation : Computation) (s : MachineState) : MachineState :=
  match operation with
  | .Add =>
      if s.get_current = 255 then s.setCell 0 else s.setCell (s.get_current + 1)
  | .Substract =>
      if s.get_current = 0 then s.setCell 255 else s.setCell (s.get_current - 1)

/-- The byte sequence `print!("{}", v as char)` emits for a cell value
below 256: the UTF-8 encoding of the code point `v`. -/
def utf8OfByte (v : Nat) : List Nat :=
  if v < 128 then [v] else [192 + v / 64, 128 + v % 64]

/-- `MachineState::print`: `print!("{}", self.get_current() as char)`. -/
def print (s : MachineState) : MachineState :=
  { s with output := s.output ++ utf8OfByte s.get_current }

/-- `MachineState::read`: read at most one byte from stdin into a buffer
initialised to `[0]`, then store `input[0]` in the current cell.  On
exhausted stdin Rust's `read` returns `Ok(0)` leaving the buffer at 0. -/
def read (s : MachineState) : MachineState :=
  match s.input with
  | [] => s.setCell 0
  | b :: rest => { s.setCell b with input := rest }

/-- One digit of Rust's `{:02X}` formatting: uppercase hexadecimal. -/
def hexDigit (n : Nat) : Char :=
  if n < 10 then Char.ofNat (48 + n) else Char.ofNat (55 + n)

/-- The `Display` implementation for `MachineState` (the tape dump):
for each cell, `" {:02X} {} "` with `<` as the pointer marker, and a
newline after each cell whose index is a nonzero multiple of 15. -/
def render (s : MachineState) : List Char :=
  s.memory.enum.foldl
    (fun acc iv =>
      acc ++ ([' ', hexDigit (iv.2 / 16), hexDigit (iv.2 % 16), ' ',
               if iv.1 = s.pointer then '<' else ' ', ' '] ++
        (if iv.1 % 15 = 0 ∧ iv.1 ≠ 0 then ['\n'] else []))) []

/-- `MachineState::apply`: dispatch one instruction.  The Rust original
returns `io::Result`; with the channels embedded as pure lists no I/O
error can arise, so the embedding is total. -/
def apply (instr : Operation) (s : MachineState) : MachineState :=
  match instr with
  | .Move dir => s.pointer_move dir
  | .Change op => s.change op
  | .Print => s.print
  | .Read => s.read
  | .Debug => { s with debug := s.debug ++ [render s ++ ['\n']] }

/-- `MachineState::run`: the tree walk, with `fuel` bounding the number
of loop re-entries (`none` models a walk still running after `fuel`
re-entries; the Rust loop has no bound). -/
def run : Nat → AST → MachineState → Option MachineState
  | _, .EOF, s => some s
  | fuel, .Instructions ops next, s =>
      run fuel next (ops.foldl (fun t op => apply op t) s)
  | 0, .Loop _body next, s =>
      if s.get_current ≠ 0 then none else run 0 next s
  | fuel + 1, .Loop body next, s =>
      if s.get_current ≠ 0 then
        (run (fuel + 1) body s).bind (fun t => run fuel (.Loop body next) t)
      else
        run (fuel + 1) next s

end MachineState

namespace AST

/-- `AST::box_if_not_empty`: cap an accumulated run, collapsing an empty
run to its continuation. -/
def box_if_not_empty (ops : List Operation) (ast : AST) : AST :=
  if ops.length ≠ 0 then .Instructions ops ast else ast

/-- `AST::from`, on an explicit character list in place of the `Chars`
iterator: returns the parsed subtree together with the characters left
unconsumed, and carries the proof that parsing only ever consumes
characters (which bounds the recursion through the loop-body call). -/
def parseAux :
    (l : List Char) → List Operation → { p : AST × List Char // p.2.length ≤ l.length }
  | [], acc => ⟨(box_if_not_empty acc .EOF, []), Nat.le_refl 0⟩
  | c :: rest, acc =>
    match Operation.fromChar c with
    | some op =>
        match parseAux rest (acc ++ [op]) with
        | ⟨p, hp⟩ => ⟨p, Nat.le_succ_of_le hp⟩
    | none =>
        if c = '[' then
          match parseAux rest [] with
          | ⟨(body, rest1), h1⟩ =>
            match parseAux rest1 [] with
            | ⟨(next, rest2), h2⟩ =>
              ⟨(box_if_not_empty acc (.Loop body next), rest2),
                Nat.le_succ_of_le (Nat.le_trans h2 h1)⟩
        else if c = ']' then
          ⟨(box_if_not_empty acc .EOF, rest), Nat.le_succ_of_le (Nat.le_refl _)⟩
        else
          match parseAux rest acc with
          | ⟨p, hp⟩ => ⟨p, Nat.le_succ_of_le hp⟩
termination_by l _ => l.length
decreasing_by
  all_goals simp_all [List.length_cons]
  omega

/-- `AST::from_string`: parse a whole program. -/
def fromChars (l : List Char) : AST :=
  (parseAux l []).val.1

/-- The `Display` implementation for `AST`: each instruction's canonical
character, loop bodies wrapped in brackets. -/
def serialize : AST → List Char
  | .Instructions ops next => ops.map Operation.value ++ serialize next
  | .Loop body next => '[' :: (serialize body ++ ']' :: serialize next)
  | .EOF => []

end AST

/-- Programs built only from the 7 instruction characters and properly
matched bracket pairs. -/
inductive WF : List Char → Prop
  | nil : WF []
  | instr {c : Char} {op : Operation} {rest : List Char} :
      Operation.fromChar c = some op → WF rest → WF (c :: rest)
  | loop {inner rest : List Char} :
      WF inner → WF rest → WF ('[' :: (inner ++ ']' :: rest))

/-- The tape invariant of the machine: at least one cell, and the
pointer strictly inside the tape. -/
def Inv (s : MachineState) : Prop :=
  1 ≤ s.memory.length ∧ s.pointer + 1 ≤ s.memory.length

instance (s : MachineState) : Decidable (Inv s) := by
  unfold Inv; infer_instance

/-- Decode an uppercase hexadecimal digit character. -/
def hexVal (c : Char) : Nat :=
  if c.toNat ≤ 57 then c.toNat - 48 else c.toNat - 55

/-- Characters `0`-`9` and `A`-`F`. -/
def isUpperHexDigit (c : Char) : Prop :=
  (48 ≤ c.toNat ∧ c.toNat ≤ 57) ∨ (65 ≤ c.toNat ∧ c.toNat ≤ 70)

instance (c : Char) : Decidable (isUpperHexDigit c) := by
  unfold isUpperHexDigit; infer_instance

/-- A machine state whose current cell holds 5 and whose stdin is
exhausted: the input of the `Read`-at-end-of-input counterexample. -/
def cell5State : MachineState :=
  { pointer := 0, memory := [5], input := [], output := [], debug := [] }

/-- A machine state whose current cell holds 200 (≥ 128): the input on
which `print!` emits two bytes. -/
def cell200State : MachineState :=
  { pointer := 0, memory := [200], input := [], output := [], debug := [] }

/-- A machine state with 31 zero cells: its tape dump has a 16-cell
first row and a 15-cell second row. -/
def tape31State : MachineState :=
  { pointer := 0, memory := List.replicate 31 0, input := [], output := [], debug := [] }

/-! ## Helper lemmas -/

/-- Recognised characters serialize back to themselves. -/
theorem Operation.value_fromChar {c : Char} {op : Operation}
    (h : Operation.fromChar c = some op) : op.value = c := by
  unfold Operation.fromChar at h
  split_ifs at h with h1 h2 h3 h4 h5 h6 h7 <;> (cases h; subst_vars; rfl)

/-- Unfolding lemma for the tape invariant. -/
theorem inv_def (s : MachineState) :
    Inv s ↔ 1 ≤ s.memory.length ∧ s.pointer + 1 ≤ s.memory.length :=
  Iff.rfl

/-- A single instruction preserves the tape invariant. -/
theorem inv_apply (i : Operation) (s : MachineState) (h : Inv s) :
    Inv (MachineState.apply i s) := by
  rw [inv_def] at h
  cases i with
  | Move dir =>
      cases dir with
      | Left =>
          simp only [MachineState.apply, MachineState.pointer_move]
          split_ifs <;> (simp only [inv_def, List.length_append, List.length_cons, List.length_set]; omega)
      | Right =>
          simp only [MachineState.apply, MachineState.pointer_move]
          split_ifs <;> (simp only [inv_def, List.length_append, List.length_cons, List.length_set]; omega)
  | Change op =>
      cases op <;>
        (simp only [MachineState.apply, MachineState.change, MachineState.setCell]
         split_ifs <;> (simp only [inv_def, List.length_append, List.length_cons, List.length_set]; omega))
  | Print => exact h
  | Read =>
      simp only [MachineState.apply, MachineState.read]
      cases hin : s.input <;>
        (simp only [MachineState.setCell]
         simp only [inv_def, List.length_set]
         omega)
  | Debug => exact h

/-- A run of instructions preserves the tape invariant. -/
theorem inv_foldl (ops : List Operation) (s : MachineState) (h : Inv s) :
    Inv (ops.foldl (fun t op => MachineState.apply op t) s) := by
  induction ops generalizing s with
  | nil => exact h
  | cons op ops ih => exact ih _ (inv_apply op s h)

/-- Every state reached by a tree walk satisfies the tape invariant. -/
theorem inv_run (fuel : Nat) (ast : AST) (s : MachineState) :
    ∀ s', Inv s → MachineState.run fuel ast s = some s' → Inv s' := by
  induction fuel, ast, s using MachineState.run.induct with
  | case1 fuel s =>
      intro s' h hr
      simp only [MachineState.run, Option.some.injEq] at hr
      exact hr ▸ h
  | case2 fuel ops next s ih =>
      intro s' h hr
      simp only [MachineState.run] at hr
      exact ih s' (inv_foldl ops s h) hr
  | case3 body next s hc =>
      intro s' h hr
      simp only [MachineState.run, if_pos hc] at hr
      exact Option.noConfusion hr
  | case4 body next s hc ih =>
      intro s' h hr
      simp only [MachineState.run, if_neg hc] at hr
      exact ih s' h hr
  | case5 fuel body next s hc ih1 ih2 =>
      intro s' h hr
      simp only [MachineState.run, if_pos hc, Option.bind_eq_some] at hr
      obtain ⟨t, ht, hs'⟩ := hr
      exact ih2 t s' (ih1 t h ht) hs'
  | case6 fuel body next s hc ih =>
      intro s' h hr
      simp only [MachineState.run, if_neg hc] at hr
      exact ih s' h hr

/-- Unfolding: parsing an exhausted stream caps the run with `EOF`. -/
theorem pa_nil (acc : List Operation) :
    (AST.parseAux [] acc).val = (AST.box_if_not_empty acc .EOF, []) := by
  rw [AST.parseAux]

/-- Unfolding: an instruction character is appended to the current run. -/
theorem pa_op {c : Char} {op : Operation} (h : Operation.fromChar c = some op)
    (rest : List Char) (acc : List Operation) :
    (AST.parseAux (c :: rest) acc).val = (AST.parseAux rest (acc ++ [op])).val := by
  rw [AST.parseAux]
  simp [h]

/-- Unfolding: a loop-close delimiter ends the current parse level. -/
theorem pa_close (rest : List Char) (acc : List Operation) :
    (AST.parseAux (']' :: rest) acc).val = (AST.box_if_not_empty acc .EOF, rest) := by
  rw [AST.parseAux]
  simp [Operation.fromChar]

/-- Unfolding: an unrecognised character is skipped. -/
theorem pa_skip {c : Char} (h1 : Operation.fromChar c = none) (h2 : ¬ c = '[')
    (h3 : ¬ c = ']') (rest : List Char) (acc : List Operation) :
    (AST.parseAux (c :: rest) acc).val = (AST.parseAux rest acc).val := by
  rw [AST.parseAux]
  simp [h1, h2, h3]

/-- Unfolding: a loop-open delimiter parses a body, then a continuation. -/
theorem pa_open (rest : List Char) (acc : List Operation) :
    (AST.parseAux ('[' :: rest) acc).val =
      (AST.box_if_not_empty acc
        (.Loop (AST.parseAux rest []).val.1
               (AST.parseAux (AST.parseAux rest []).val.2 []).val.1),
       (AST.parseAux (AST.parseAux rest []).val.2 []).val.2) := by
  rw [AST.parseAux]
  simp [Operation.fromChar]

/-- Serializing a capped run prepends the run's characters. -/
theorem serialize_box (ops : List Operation) (t : AST) :
    (AST.box_if_not_empty ops t).serialize = ops.map Operation.value ++ t.serialize := by
  unfold AST.box_if_not_empty
  split_ifs with h
  · rfl
  · have hops : ops = [] := by simpa using h
    simp [hops]

/-- Parsing a well-formed chunk followed by an (unmatched, for the
chunk) loop-close delimiter consumes exactly the chunk and the
delimiter, and the parsed subtree serializes back to the accumulated
run's characters followed by the chunk. -/
theorem parse_wf_bracket {l : List Char} (h : WF l) :
    ∀ (rest : List Char) (acc : List Operation),
      (AST.parseAux (l ++ ']' :: rest) acc).val.2 = rest ∧
      (AST.parseAux (l ++ ']' :: rest) acc).val.1.serialize =
        acc.map Operation.value ++ l := by
  induction h with
  | nil =>
      intro rest acc
      simp [pa_close, serialize_box, AST.serialize]
  | @instr c op tail hop hwf ih =>
      intro rest acc
      rw [List.cons_append, pa_op hop]
      obtain ⟨ih1, ih2⟩ := ih rest (acc ++ [op])
      refine ⟨ih1, ?_⟩
      rw [ih2]
      simp [Operation.value_fromChar hop]
  | @loop inner tail h1 h2 ih1 ih2 =>
      intro rest acc
      have hassoc : ('[' :: (inner ++ ']' :: tail)) ++ ']' :: rest =
          '[' :: (inner ++ ']' :: (tail ++ ']' :: rest)) := by simp
      rw [hassoc, pa_open]
      obtain ⟨b2, b1⟩ := ih1 (tail ++ ']' :: rest) []
      rw [b2]
      obtain ⟨d2, d1⟩ := ih2 rest []
      refine ⟨d2, ?_⟩
      rw [serialize_box]
      simp [AST.serialize, b1, d1]

/-- Parsing a whole well-formed program consumes everything, and the
tree serializes back to the accumulated run followed by the program. -/
theorem parse_wf_toEnd {l : List Char} (h : WF l) :
    ∀ acc : List Operation,
      (AST.parseAux l acc).val.2 = [] ∧
      (AST.parseAux l acc).val.1.serialize = acc.map Operation.value ++ l := by
  induction h with
  | nil =>
      intro acc
      simp [pa_nil, serialize_box, AST.serialize]
  | @instr c op tail hop hwf ih =>
      intro acc
      rw [pa_op hop]
      obtain ⟨ih1, ih2⟩ := ih (acc ++ [op])
      refine ⟨ih1, ?_⟩
      rw [ih2]
      simp [Operation.value_fromChar hop]
  | @loop inner tail h1 h2 ih1 ih2 =>
      intro acc
      rw [pa_open]
      obtain ⟨b2, b1⟩ := parse_wf_bracket h1 tail []
      rw [b2]
      obtain ⟨d2, d1⟩ := ih2 []
      refine ⟨d2, ?_⟩
      rw [serialize_box]
      simp [AST.serialize, b1, d1]

/-- A left fold that only appends is a concatenation of the pieces. -/
theorem foldl_append_eq_flatMap {α β : Type} (f : α → List β) (l : List α)
    (init : List β) :
    l.foldl (fun acc x => acc ++ f x) init = init ++ l.flatMap f := by
  induction l generalizing init with
  | nil => simp
  | cons x xs ih => simp [ih]

/-! ## The claims -/

/-- C1 counterexample: with stdin exhausted, `Read` on a state whose
current cell holds 5 changes the cell (to 0), contradicting "leaves the
current cell's value unchanged". -/
theorem read_eof_changes_cell :
    cell5State.input = [] ∧
    (MachineState.read cell5State).get_current ≠ cell5State.get_current := by
  decide

/-- C1 (amended): for every machine state whose input channel has no
bytes remaining, `Read` returns success and overwrites the current cell
with 0, leaving the pointer, the output channel and the rest of the
tape unchanged. -/
theorem read_eof_stores_zero (s : MachineState) (h : s.input = []) :
    (MachineState.read s).memory = s.memory.set s.pointer 0 ∧
    (MachineState.read s).pointer = s.pointer ∧
    (MachineState.read s).output = s.output ∧
    (MachineState.read s).input = [] := by
  simp [MachineState.read, h, MachineState.setCell]

/-- C1 witness. -/
theorem read_eof_stores_zero_witness :
    (MachineState.read cell5State).memory = cell5State.memory.set cell5State.pointer 0 :=
  (read_eof_stores_zero cell5State rfl).1

/-- C2: on a state whose current cell holds 200, `Print` appends the two
bytes 195 and 136 (the UTF-8 encoding of code point 200) to the output
channel, not the single byte 200 the specification requires. -/
theorem print_emits_two_bytes :
    (MachineState.apply .Print cell200State).output = [195, 136] ∧
    (MachineState.apply .Print cell200State).output ≠ [cell200State.get_current] := by
  decide

/-- C3: a `Loop` checks the governing cell strictly before each pass: if
the cell under the pointer is zero at entry, the body runs zero times
and control proceeds directly to the continuation on the unchanged
state. -/
theorem loop_pretests_condition (fuel : Nat) (body next : AST) (s : MachineState) :
    (s.get_current = 0 →
      MachineState.run fuel (.Loop body next) s = MachineState.run fuel next s) ∧
    (s.get_current ≠ 0 →
      MachineState.run (fuel + 1) (.Loop body next) s =
        (MachineState.run (fuel + 1) body s).bind
          (fun t => MachineState.run fuel (.Loop body next) t)) := by
  constructor
  · intro h
    cases fuel <;> simp [MachineState.run, h]
  · intro h
    simp [MachineState.run, h]

/-- C3 witness. -/
theorem loop_pretests_condition_witness :
    MachineState.run 1 (.Loop .EOF .EOF) (MachineState.mkNew []) =
      MachineState.run 1 .EOF (MachineState.mkNew []) :=
  (loop_pretests_condition 1 .EOF .EOF (MachineState.mkNew [])).1 (by decide)

/-- C6: `Increment` maps the current cell value `v` to `(v + 1) % 256`
and `Decrement` maps it to `(v - 1) mod 256` (computed over ℤ), touching
nothing but that one cell: the pointer is unchanged and the new tape is
the old one with only the pointed-to entry replaced. -/
theorem change_wraps_mod_256 (s : MachineState) (hv : s.get_current < 256) :
    ((s.change .Add).pointer = s.pointer ∧
     (s.change .Add).memory = s.memory.set s.pointer ((s.get_current + 1) % 256)) ∧
    ((s.change .Substract).pointer = s.pointer ∧
     (s.change .Substract).memory = s.memory.set s.pointer ((s.get_current + 255) % 256) ∧
     ((s.get_current + 255) % 256 : Int) = ((s.get_current : Int) - 1) % 256) := by
  refine ⟨⟨?_, ?_⟩, ?_, ?_, ?_⟩
  · simp only [MachineState.change, MachineState.setCell]
    split_ifs <;> rfl
  · simp only [MachineState.change, MachineState.setCell]
    split_ifs with h255
    · simp [h255]
    · have hmod : (s.get_current + 1) % 256 = s.get_current + 1 :=
        Nat.mod_eq_of_lt (by omega)
      rw [hmod]
  · simp only [MachineState.change, MachineState.setCell]
    split_ifs <;> rfl
  · simp only [MachineState.change, MachineState.setCell]
    split_ifs with h0
    · simp [h0]
    · have hmod : (s.get_current + 255) % 256 = s.get_current - 1 := by omega
      rw [hmod]
  · omega

/-- C6 witness (wraparound case: cell at 255 and cell at 0). -/
theorem change_wraps_mod_256_witness :
    ((MachineState.change .Add
        { pointer := 0, memory := [255], input := [], output := [], debug := [] }).memory
      = [0]) ∧
    ((MachineState.change .Substract (MachineState.mkNew [])).memory = [255]) :=
  ⟨by
    have h := (change_wraps_mod_256
      { pointer := 0, memory := [255], input := [], output := [], debug := [] }
      (by decide)).1.2
    simpa using h,
   by
    have h := (change_wraps_mod_256 (MachineState.mkNew []) (by decide)).2.2.1
    simpa using h⟩

/-- C8: under the tape invariant, `MoveRight` from the rightmost cell
increments the pointer and appends exactly one zero cell (all old cells
kept); from anywhere else it increments the pointer and leaves the tape
untouched. -/
theorem move_right_grows_lazily (s : MachineState) (_inv : Inv s) :
    (s.pointer + 1 = s.memory.length →
      (s.pointer_move .Right).pointer = s.pointer + 1 ∧
      (s.pointer_move .Right).memory = s.memory ++ [0]) ∧
    (s.pointer + 1 < s.memory.length →
      (s.pointer_move .Right).pointer = s.pointer + 1 ∧
      (s.pointer_move .Right).memory = s.memory) := by
  constructor
  · intro hlen
    simp [MachineState.pointer_move, hlen]
  · intro hlt
    simp only [MachineState.pointer_move]
    split_ifs with heq
    · exact absurd heq (by omega)
    · exact ⟨rfl, rfl⟩

/-- C8 witness (growth case, from the initial single-cell tape). -/
theorem move_right_grows_lazily_witness :
    ((MachineState.mkNew []).pointer_move .Right).pointer = 1 ∧
    ((MachineState.mkNew []).pointer_move .Right).memory = [0, 0] :=
  ((move_right_grows_lazily (MachineState.mkNew []) (by decide)).1 (by decide))

/-- C10: with stdin exhausted, `Read` succeeds and stores 0 in the
current cell regardless of its previous value. -/
theorem read_eof_result_is_zero (s : MachineState) (h : s.input = [])
    (hp : s.pointer < s.memory.length) :
    (MachineState.read s).get_current = 0 ∧
    (MachineState.read s).memory = s.memory.set s.pointer 0 := by
  constructor
  · simp [MachineState.read, h, MachineState.setCell, MachineState.get_current,
      List.getD, hp]
  · simp [MachineState.read, h, MachineState.setCell]

/-- C10 witness. -/
theorem read_eof_result_is_zero_witness :
    (MachineState.read cell5State).get_current = 0 :=
  (read_eof_result_is_zero cell5State rfl (by decide)).1

/-- C4: for every program built only from the 7 instruction characters
and properly matched bracket pairs, serializing the parsed tree (each
instruction's canonical character, loop bodies wrapped in brackets)
reproduces the original character sequence exactly. -/
theorem parse_serialize_round_trip (l : List Char) (h : WF l) :
    (AST.fromChars l).serialize = l := by
  have hEnd := (parse_wf_toEnd h []).2
  simpa [AST.fromChars] using hEnd

/-- C4 witness: the round trip on the concrete program `+[>.],`. -/
theorem parse_serialize_round_trip_witness :
    (AST.fromChars ['+', '[', '>', '.', ']', ',']).serialize =
      ['+', '[', '>', '.', ']', ','] :=
  parse_serialize_round_trip _
    (@WF.instr '+' (.Change .Add) ['[', '>', '.', ']', ','] (by decide)
      (@WF.loop ['>', '.'] [',']
        (@WF.instr '>' (.Move .Right) ['.'] (by decide)
          (@WF.instr '.' .Print [] (by decide) WF.nil))
        (@WF.instr ',' .Read [] (by decide) WF.nil)))

/-- C5: parsing is a total function of the input string — `fromChars`
is a Lean function (whose termination the definition itself certifies),
so every string, including malformed ones, is mapped to some tree; in
particular the empty string, a lone unmatched loop-open, an unmatched
loop-close followed by garbage, and non-instruction characters all
yield trees. -/
theorem parse_is_total :
    (∀ l : List Char, ∃ t : AST, AST.fromChars l = t) ∧
    AST.fromChars [] = .EOF ∧
    AST.fromChars ['['] = .Loop .EOF .EOF ∧
    AST.fromChars [']', '+'] = .EOF ∧
    AST.fromChars ['a', 'b'] = .EOF := by
  have e0 : (AST.parseAux [] ([] : List Operation)).val = (AST.EOF, []) := by
    rw [pa_nil]
    simp [AST.box_if_not_empty]
  refine ⟨fun l => ⟨_, rfl⟩, ?_, ?_, ?_, ?_⟩
  · unfold AST.fromChars
    rw [e0]
  · unfold AST.fromChars
    rw [pa_open, e0]
    dsimp only
    rw [e0]
    simp [AST.box_if_not_empty]
  · unfold AST.fromChars
    rw [pa_close]
    simp [AST.box_if_not_empty]
  · unfold AST.fromChars
    rw [pa_skip (by decide) (by decide) (by decide),
      pa_skip (by decide) (by decide) (by decide), e0]

/-- C7: the tape invariant (length ≥ 1 and length ≥ pointer + 1) holds
in the initial state, is preserved by every single instruction, and
hence holds at every state a tree walk can reach. -/
theorem tape_invariant_preserved :
    (∀ stdin : List Nat, Inv (MachineState.mkNew stdin)) ∧
    (∀ (i : Operation) (s : MachineState), Inv s → Inv (MachineState.apply i s)) ∧
    (∀ (fuel : Nat) (ast : AST) (s s' : MachineState),
      Inv s → MachineState.run fuel ast s = some s' → Inv s') :=
  ⟨fun _ => ⟨by simp [MachineState.mkNew], by simp [MachineState.mkNew]⟩,
   inv_apply,
   fun fuel ast s s' h hr => inv_run fuel ast s s' h hr⟩

/-- C7 witness. -/
theorem tape_invariant_preserved_witness :
    Inv (MachineState.apply (.Move .Right) (MachineState.mkNew [])) :=
  tape_invariant_preserved.2.1 (.Move .Right) (MachineState.mkNew []) (by decide)

/-- C9 counterexample: on a 31-cell tape the dump has a 16-cell first
row and a 15-cell second row, so the rows other than the last do not
all contain the same number of cells (each rendered cell is 6
characters wide, so a row holds `length / 6` cells). -/
theorem dump_rows_uneven :
    ¬ (∀ r1 ∈ ((MachineState.render tape31State).splitOn '\n').dropLast,
       ∀ r2 ∈ ((MachineState.render tape31State).splitOn '\n').dropLast,
         r1.length / 6 = r2.length / 6) := by
  decide

/-- C9 (amended): the dump renders each cell as a 6-character group
`" XX m "` whose two digits are uppercase hexadecimal and decode to the
cell's value, whose marker `m` is `<` exactly at the pointer, and emits
a newline after each cell whose index is a nonzero multiple of 15 — so
the first row holds 16 cells and later full rows 15, as the 31-cell
tape exhibits. -/
theorem dump_format (s : MachineState) :
    (MachineState.render s =
      s.memory.enum.flatMap (fun iv =>
        [' ', MachineState.hexDigit (iv.2 / 16), MachineState.hexDigit (iv.2 % 16), ' ',
         if iv.1 = s.pointer then '<' else ' ', ' '] ++
        (if iv.1 % 15 = 0 ∧ iv.1 ≠ 0 then ['\n'] else []))) ∧
    (∀ v : Nat, v < 256 →
      isUpperHexDigit (MachineState.hexDigit (v / 16)) ∧
      isUpperHexDigit (MachineState.hexDigit (v % 16)) ∧
      hexVal (MachineState.hexDigit (v / 16)) * 16 +
        hexVal (MachineState.hexDigit (v % 16)) = v) ∧
    ((MachineState.render tape31State).splitOn '\n').map (fun r => r.length / 6) =
      [16, 15, 0] := by
  refine ⟨?_, ?_, by decide⟩
  · unfold MachineState.render
    exact (foldl_append_eq_flatMap _ _ _).trans (by simp)
  · have hd : ∀ n, n < 16 →
        isUpperHexDigit (MachineState.hexDigit n) ∧
        hexVal (MachineState.hexDigit n) = n := by decide
    intro v hv
    have h1 := hd (v / 16) (by omega)
    have h2 := hd (v % 16) (by omega)
    refine ⟨h1.1, h2.1, ?_⟩
    rw [h1.2, h2.2]
    omega

/-- C9 witness. -/
theorem dump_format_witness :
    isUpperHexDigit (MachineState.hexDigit (200 / 16)) :=
  ((dump_format tape31State).2.1 200 (by decide)).1

end Rebf
